import Mathlib

/-!
Verification of the `replace_with_order_preserving_variants` physical-plan
rewrite pass (datafusion/core/src/physical_optimizer/replace_with_order_preserving_variants.rs).

The pass consists of two procedures threaded through a plan tree by a generic
traversal engine:

* `propagate_order_maintaining_connections_down` computes, top-down, a boolean
  ordering-connection flag per child edge;
* `replace_with_order_preserving_variants_up` computes, bottom-up, an optional
  order-preserving alternative subplan per node and eliminates a `SortExec`
  when its child's alternative satisfies the sort's required ordering.

Plan nodes are shallowly embedded as a tree of tagged variants
(sort / repartition / coalesce-partitions / sort-preserving-merge / generic),
where the generic bucket carries the capability data consumed by the pass
(per-edge order-preservation flags, output ordering, equivalence properties,
output partitioning, boundedness).  Capability queries on the specialized
variants, the ordering-satisfaction predicate, the operator constructors and
the traversal engine are external collaborators of the file under
verification; they are modelled from the specification, as marked in the
corresponding doc comments.
-/

/-- A sort key: an expression (identified by a numeral), a direction, and a
null ordering.  Corresponds to `PhysicalSortExpr`. -/
structure SortKey where
  expr : Nat
  descending : Bool
  nulls_first : Bool
deriving DecidableEq, Repr

/-- An ordering: a sequence of sort keys.  Corresponds to `&[PhysicalSortExpr]`. -/
abbrev PhysicalOrdering := List SortKey

/-- Equivalence classes of expressions, each class a list of member
expressions with the head acting as representative. -/
abbrev EqClasses := List (List Nat)

/-- Modelled from the spec: resolving an expression to the representative of
its equivalence class (an expression not in any class represents itself). -/
def EqClasses.normalize (ec : EqClasses) (e : Nat) : Nat :=
  match ec.find? fun cls => cls.contains e with
  | some cls => cls.headD e
  | none => e

/-- The equivalence-properties view of a plan node: equivalence classes plus
the orderings the node's output is known to satisfy. -/
structure EquivalenceProperties where
  classes : EqClasses
  orderings : List PhysicalOrdering
deriving DecidableEq, Repr

/-- Modelled from the spec: the equivalence-aware `ordering_satisfy` predicate
(external to the source file under verification).  A requirement `R` is
satisfied if, after resolving equivalent expressions, `R`'s key sequence is a
prefix-compatible match against one of the known output orderings; the empty
requirement is trivially satisfied. -/
def EquivalenceProperties.ordering_satisfy (ep : EquivalenceProperties)
    (required : PhysicalOrdering) : Bool :=
  required.isEmpty ||
    ep.orderings.any fun actual =>
      List.isPrefixOf
        (required.map fun k => { k with expr := ec_norm k.expr })
        (actual.map fun k => { k with expr := ec_norm k.expr })
where
  ec_norm (e : Nat) : Nat := EqClasses.normalize ep.classes e

/-- An output partitioning scheme, mirroring `Partitioning`. -/
inductive Partitioning where
  | roundRobinBatch (n : Nat)
  | hash (exprs : List Nat) (n : Nat)
  | unknownPartitioning (n : Nat)
deriving DecidableEq, Repr

/-- Capability data of a plan operator outside the closed set handled by the
pass, as consumed through the external plan-node interface. -/
structure GenericCaps where
  tag : Nat
  outputOrdering : Option PhysicalOrdering
  eqProps : EquivalenceProperties
  outputPartitioning : Partitioning
  unboundedSource : Bool
deriving DecidableEq, Repr

/-- A physical plan node.  The closed set of variants the pass dispatches on
(`SortExec`, `RepartitionExec`, `CoalescePartitionsExec`,
`SortPreservingMergeExec`) plus a generic bucket for every other operator.
A generic node stores, for each child edge, the per-edge order-preservation
flag together with the child, so an operator's `maintains_input_order` vector
always has one entry per child. -/
inductive PlanNode where
  | sort (outputOrdering : Option PhysicalOrdering) (child : PlanNode)
  | repartition (partitioning : Partitioning) (preserveOrder : Bool) (child : PlanNode)
  | coalescePartitions (child : PlanNode)
  | sortPreservingMerge (ordering : PhysicalOrdering) (child : PlanNode)
  | generic (caps : GenericCaps) (children : List (Bool × PlanNode))

/-- The `is_sort` type test from `physical_optimizer::utils`. -/
def is_sort : PlanNode → Bool
  | .sort _ _ => true
  | _ => false

/-- The `is_repartition` type test from `physical_optimizer::utils`. -/
def is_repartition : PlanNode → Bool
  | .repartition _ _ _ => true
  | _ => false

/-- The `is_coalesce_partitions` type test from `physical_optimizer::utils`. -/
def is_coalesce_partitions : PlanNode → Bool
  | .coalescePartitions _ => true
  | _ => false

/-- The `children()` accessor of a plan node. -/
def children : PlanNode → List PlanNode
  | .sort _ c => [c]
  | .repartition _ _ c => [c]
  | .coalescePartitions c => [c]
  | .sortPreservingMerge _ c => [c]
  | .generic _ cs => cs.map Prod.snd

/-- Modelled from the spec: the `maintains_input_order()` capability query
(order-preservation per input edge), external to the file under verification.
A repartition maintains order exactly when tagged order-preserving, a
coalesce-partitions never does, a sort-preserving merge always does, and a
generic operator reports its stored per-edge flags. -/
def maintains_input_order : PlanNode → List Bool
  | .sort _ _ => [false]
  | .repartition _ preserveOrder _ => [preserveOrder]
  | .coalescePartitions _ => [false]
  | .sortPreservingMerge _ _ => [true]
  | .generic _ cs => cs.map Prod.fst

/-- Modelled from the spec: the `output_ordering()` capability query, external
to the file under verification.  An order-preserving operator exposes its
child's (or its configured) ordering; an order-destroying one exposes none. -/
def output_ordering : PlanNode → Option PhysicalOrdering
  | .sort o _ => o
  | .repartition _ preserveOrder c =>
    if preserveOrder then output_ordering c else none
  | .coalescePartitions _ => none
  | .sortPreservingMerge o _ => some o
  | .generic caps _ => caps.outputOrdering

/-- Modelled from the spec: the `equivalence_properties()` capability query,
external to the file under verification.  Order-preserving variants carry
their child's properties; order-destroying operators expose no orderings. -/
def equivalence_properties : PlanNode → EquivalenceProperties
  | .sort o c =>
    { classes := (equivalence_properties c).classes
      orderings := o.elim [] fun x => [x] }
  | .repartition _ preserveOrder c =>
    if preserveOrder then equivalence_properties c
    else { classes := (equivalence_properties c).classes, orderings := [] }
  | .coalescePartitions c =>
    { classes := (equivalence_properties c).classes, orderings := [] }
  | .sortPreservingMerge o c =>
    { classes := (equivalence_properties c).classes
      orderings := o :: (equivalence_properties c).orderings }
  | .generic caps _ => caps.eqProps

/-- Modelled from the spec: the `output_partitioning()` capability query,
external to the file under verification. -/
def output_partitioning : PlanNode → Partitioning
  | .sort _ c => output_partitioning c
  | .repartition p _ _ => p
  | .coalescePartitions _ => Partitioning.unknownPartitioning 1
  | .sortPreservingMerge _ _ => Partitioning.unknownPartitioning 1
  | .generic caps _ => caps.outputPartitioning

mutual

/-- Modelled from the spec: `unbounded_output` from `datafusion_physical_plan`
(external to the file under verification) — whether an unbounded source is
reachable in the node's subtree. -/
def unbounded_output : PlanNode → Bool
  | .sort _ c => unbounded_output c
  | .repartition _ _ c => unbounded_output c
  | .coalescePartitions c => unbounded_output c
  | .sortPreservingMerge _ c => unbounded_output c
  | .generic caps cs => caps.unboundedSource || unbounded_output_any cs

/-- Whether any of the listed child edges has an unbounded subtree. -/
def unbounded_output_any : List (Bool × PlanNode) → Bool
  | [] => false
  | (_, c) :: cs => unbounded_output c || unbounded_output_any cs

end

/-- Modelled from the spec: the `with_new_children` tree-reconstruction
capability (external to the file under verification): rebuild the operator
with the given children, keeping its own data.  An arity mismatch is a
construction error externally; the model keeps the node unchanged in that
case (never exercised by the pass, which always supplies one new child per
existing child). -/
def with_new_children : PlanNode → List PlanNode → PlanNode
  | .sort o _, [c] => .sort o c
  | .repartition p preserveOrder _, [c] => .repartition p preserveOrder c
  | .coalescePartitions _, [c] => .coalescePartitions c
  | .sortPreservingMerge o _, [c] => .sortPreservingMerge o c
  | .generic caps cs, l => .generic caps ((cs.map Prod.fst).zip l)
  | plan, _ => plan

namespace RepartitionExec

/-- Modelled from the spec: `RepartitionExec::try_new(input, partitioning)`
(external constructor).  Its failure case (malformed partitioning) is not
modelled; construction is total here. -/
def try_new (input : PlanNode) (partitioning : Partitioning) : PlanNode :=
  .repartition partitioning false input

end RepartitionExec

/-- Modelled from the spec: `RepartitionExec::with_preserve_order` (external):
tag a repartition as order-preserving. -/
def with_preserve_order : PlanNode → PlanNode
  | .repartition p _ c => .repartition p true c
  | plan => plan

namespace SortPreservingMergeExec

/-- Modelled from the spec: `SortPreservingMergeExec::new(expr, input)`
(external constructor). -/
def new (expr : PhysicalOrdering) (input : PlanNode) : PlanNode :=
  .sortPreservingMerge expr input

end SortPreservingMergeExec

/-- The `Transformed` marker from `datafusion_common::tree_node`. -/
inductive Transformed (α : Type) where
  | yes (value : α)
  | no (value : α)

/-- The transformed or untransformed payload. -/
def Transformed.value : Transformed α → α
  | .yes v => v
  | .no v => v

/-- `ConfigOptions.optimizer`, restricted to the single flag the pass reads. -/
structure OptimizerOptions where
  prefer_existing_sort : Bool
deriving DecidableEq, Repr

/-- `datafusion_common::config::ConfigOptions`, restricted likewise. -/
structure ConfigOptions where
  optimizer : OptimizerOptions
deriving DecidableEq, Repr

/-- `propagate_order_maintaining_connections_down` (source lines 69–91).
The Rust function wraps its result in an always-`Ok` `Result`; the wrapper is
omitted since no error can occur. -/
def propagate_order_maintaining_connections_down
    (plan : PlanNode) (ordering_connection : Bool) :
    Transformed PlanNode × List Bool × Bool :=
  let children_ordering_connections :=
    if is_sort plan then
      [true]
    else
      let possible_ordering_connection :=
        is_repartition plan || is_coalesce_partitions plan
      (maintains_input_order plan).map fun mio =>
        ordering_connection && (mio || possible_ordering_connection)
  (Transformed.no plan, children_ordering_connections, ordering_connection)

/-- `replace_with_order_preserving_variants_up` (source lines 93–187).
The `Result` wrapper is omitted: the only fallible steps are the external
constructors, which are modelled as total.  `swap_remove(0)` on the child
lists is modelled with `headD` (it panics externally on an empty vector,
which the traversal engine never passes for the unary operators involved). -/
def replace_with_order_preserving_variants_up
    (plan : PlanNode) (ordering_connection : Bool)
    (order_preserving_children : List (Option PlanNode))
    (is_spr_better : Bool) (is_spm_better : Bool)
    (config : ConfigOptions) :
    Transformed PlanNode × Option PlanNode :=
  let use_order_preserving_variant :=
    config.optimizer.prefer_existing_sort || unbounded_output plan
  if is_sort plan then
    match order_preserving_children.headD none with
    | some order_preserving_plan =>
      if (equivalence_properties order_preserving_plan).ordering_satisfy
          ((output_ordering plan).getD []) then
        (Transformed.yes order_preserving_plan, none)
      else
        (Transformed.no plan, none)
    | none => (Transformed.no plan, none)
  else if ordering_connection && is_repartition plan
      && !((maintains_input_order plan).headD false)
      && (is_spr_better || use_order_preserving_variant) then
    let child := (order_preserving_children.headD none).getD
      ((children plan).headD plan)
    let order_preserving_plan :=
      with_preserve_order (RepartitionExec.try_new child (output_partitioning plan))
    (Transformed.no plan, some order_preserving_plan)
  else if ordering_connection && is_coalesce_partitions plan
      && (is_spm_better || use_order_preserving_variant) then
    let child := (order_preserving_children.headD none).getD
      ((children plan).headD plan)
    let order_preserving_plan := (output_ordering child).map fun o =>
      SortPreservingMergeExec.new o child
    (Transformed.no plan, order_preserving_plan)
  else
    let order_preserving_plan :=
      if order_preserving_children.any Option.isSome then
        some (with_new_children plan
          ((order_preserving_children.zip (children plan)).map fun oc =>
            oc.1.getD oc.2))
      else
        none
    (Transformed.no plan, order_preserving_plan)

/-- A bounded generic source with no declared output ordering, used as a
concrete fixture. -/
def leafNode : PlanNode :=
  .generic
    { tag := 0
      outputOrdering := none
      eqProps := { classes := [], orderings := [] }
      outputPartitioning := .unknownPartitioning 1
      unboundedSource := false } []

/-- The sort key on column 0, ascending, nulls last. -/
def akey : SortKey := { expr := 0, descending := false, nulls_first := false }

/-- A bounded generic source pre-sorted on `akey`, used as a concrete fixture. -/
def sortedLeaf : PlanNode :=
  .generic
    { tag := 1
      outputOrdering := some [akey]
      eqProps := { classes := [], orderings := [[akey]] }
      outputPartitioning := .unknownPartitioning 1
      unboundedSource := false } []

/-- C1: at an explicit-sort node, the upward rewriter keeps the sort and
propagates nothing when the single child's alternative is absent; when the
alternative is present it replaces the sort with the alternative exactly when
the alternative's equivalence-aware ordering satisfies the sort's required
ordering, and otherwise keeps the sort and discards the alternative — in
every case propagating no further alternative. -/
theorem claim_C1 (o : Option PhysicalOrdering) (c : PlanNode)
    (altOpt : Option PlanNode) (conn b1 b2 : Bool) (cfg : ConfigOptions) :
    replace_with_order_preserving_variants_up (PlanNode.sort o c) conn
        [altOpt] b1 b2 cfg =
      match altOpt with
      | none => (Transformed.no (PlanNode.sort o c), none)
      | some alt =>
        if (equivalence_properties alt).ordering_satisfy (o.getD []) then
          (Transformed.yes alt, none)
        else
          (Transformed.no (PlanNode.sort o c), none) := by
  cases altOpt <;>
    simp [replace_with_order_preserving_variants_up, is_sort, output_ordering]

/-- C2: at a repartition node reached with connection flag true, first-input
order-preservation flag false, and the profitability disjunction
(kind-preferred or global prefer-existing-sort or unbounded subtree) true,
the rewriter wraps the child's alternative (else the original child) in an
order-preserving repartition variant carrying the node's own output
partitioning, leaves the node itself unchanged, and propagates the variant. -/
theorem claim_C2 (part : Partitioning) (c : PlanNode) (altOpt : Option PlanNode)
    (b1 b2 : Bool) (cfg : ConfigOptions)
    (h : b1 = true ∨ cfg.optimizer.prefer_existing_sort = true ∨
      unbounded_output (PlanNode.repartition part false c) = true) :
    replace_with_order_preserving_variants_up
        (PlanNode.repartition part false c) true [altOpt] b1 b2 cfg =
      (Transformed.no (PlanNode.repartition part false c),
       some (PlanNode.repartition part true (altOpt.getD c))) := by
  have hu : unbounded_output (PlanNode.repartition part false c) =
      unbounded_output c := rfl
  rw [hu] at h
  rcases h with h | h | h <;>
    simp [replace_with_order_preserving_variants_up, is_sort, is_repartition,
      maintains_input_order, children, output_partitioning,
      with_preserve_order, RepartitionExec.try_new, unbounded_output, h]

/-- C2 witness: a concrete repartition over a bounded leaf with the
kind-preferred flag on. -/
theorem claim_C2_witness :
    replace_with_order_preserving_variants_up
        (PlanNode.repartition (Partitioning.roundRobinBatch 2) false leafNode)
        true [none] true false ⟨⟨false⟩⟩ =
      (Transformed.no
        (PlanNode.repartition (Partitioning.roundRobinBatch 2) false leafNode),
       some (PlanNode.repartition (Partitioning.roundRobinBatch 2) true leafNode)) :=
  claim_C2 (Partitioning.roundRobinBatch 2) leafNode none true false ⟨⟨false⟩⟩
    (Or.inl rfl)

/-- C3: at a coalesce-partitions node reached with connection flag true and
the profitability disjunction true — with no check of the node's own
order-preservation flag — the rewriter takes the child's alternative (else
the original child); if that child exposes an output ordering it propagates a
sort-preserving merge built over that ordering and child, else nothing,
leaving the node itself unchanged. -/
theorem claim_C3 (c : PlanNode) (altOpt : Option PlanNode) (b1 b2 : Bool)
    (cfg : ConfigOptions)
    (h : b2 = true ∨ cfg.optimizer.prefer_existing_sort = true ∨
      unbounded_output (PlanNode.coalescePartitions c) = true) :
    replace_with_order_preserving_variants_up
        (PlanNode.coalescePartitions c) true [altOpt] b1 b2 cfg =
      (Transformed.no (PlanNode.coalescePartitions c),
       (output_ordering (altOpt.getD c)).map fun o =>
         PlanNode.sortPreservingMerge o (altOpt.getD c)) := by
  have hu : unbounded_output (PlanNode.coalescePartitions c) =
      unbounded_output c := rfl
  rw [hu] at h
  rcases h with h | h | h <;>
    simp [replace_with_order_preserving_variants_up, is_sort, is_repartition,
      is_coalesce_partitions, maintains_input_order, children,
      SortPreservingMergeExec.new, unbounded_output, h]

/-- C3 witness: a concrete coalesce-partitions over a pre-sorted bounded leaf
with the kind-preferred flag on, yielding a sort-preserving merge. -/
theorem claim_C3_witness :
    replace_with_order_preserving_variants_up
        (PlanNode.coalescePartitions sortedLeaf) true [none] false true ⟨⟨false⟩⟩ =
      (Transformed.no (PlanNode.coalescePartitions sortedLeaf),
       some (PlanNode.sortPreservingMerge [akey] sortedLeaf)) :=
  claim_C3 sortedLeaf none false true ⟨⟨false⟩⟩ (Or.inl rfl)

/-- C4: the downward propagator returns the node unchanged, the inherited
flag verbatim, and per-edge flags that are all true below an explicit sort
and otherwise `inherited AND (preserves_order_on_edge[i] OR the node is a
repartition or coalesce-partitions operator)`. -/
theorem claim_C4 (plan : PlanNode) (conn : Bool) :
    propagate_order_maintaining_connections_down plan conn =
      (Transformed.no plan,
       (if is_sort plan then
          List.replicate (children plan).length true
        else
          (maintains_input_order plan).map fun mio =>
            conn && (mio || (is_repartition plan || is_coalesce_partitions plan))),
       conn) := by
  cases plan <;>
    simp [propagate_order_maintaining_connections_down, is_sort, children,
      List.replicate]

/-- C6: at a node handled by none of the sort, repartition, or merge cases,
the rewriter returns the node unchanged and propagates a rebuilt copy with
each child replaced by its alternative where present exactly when at least
one child produced an alternative. -/
theorem claim_C6 (plan : PlanNode) (conn : Bool) (opc : List (Option PlanNode))
    (b1 b2 : Bool) (cfg : ConfigOptions)
    (h1 : is_sort plan = false)
    (h2 : (conn && is_repartition plan
        && !((maintains_input_order plan).headD false)
        && (b1 || (cfg.optimizer.prefer_existing_sort || unbounded_output plan)))
        = false)
    (h3 : (conn && is_coalesce_partitions plan
        && (b2 || (cfg.optimizer.prefer_existing_sort || unbounded_output plan)))
        = false) :
    replace_with_order_preserving_variants_up plan conn opc b1 b2 cfg =
      (Transformed.no plan,
       if opc.any Option.isSome then
         some (with_new_children plan
           ((opc.zip (children plan)).map fun oc => oc.1.getD oc.2))
       else none) := by
  simp only [replace_with_order_preserving_variants_up]
  rw [h1]
  simp only [Bool.false_eq_true, if_false]
  rw [h2, h3]
  simp

/-- C6 witness: a coalesce-partitions node with connection flag false and one
child alternative, rebuilt around the alternative. -/
theorem claim_C6_witness :
    replace_with_order_preserving_variants_up
        (PlanNode.coalescePartitions leafNode) false [some sortedLeaf]
        false false ⟨⟨false⟩⟩ =
      (Transformed.no (PlanNode.coalescePartitions leafNode),
       some (PlanNode.coalescePartitions sortedLeaf)) :=
  claim_C6 (PlanNode.coalescePartitions leafNode) false [some sortedLeaf]
    false false ⟨⟨false⟩⟩ rfl rfl rfl

/-- C7: across both phases the only in-place change is sort elimination: the
downward propagator returns the node unchanged and passes the inherited flag
through verbatim, and the upward rewriter reports a transformation only in
the sort branch (yielding the consumed child alternative), returning the node
untransformed in every other branch. -/
theorem claim_C7 (plan : PlanNode) (conn : Bool) (opc : List (Option PlanNode))
    (b1 b2 : Bool) (cfg : ConfigOptions) :
    (propagate_order_maintaining_connections_down plan conn).1 =
      Transformed.no plan ∧
    (propagate_order_maintaining_connections_down plan conn).2.2 = conn ∧
    (is_sort plan = false →
      (replace_with_order_preserving_variants_up plan conn opc b1 b2 cfg).1 =
        Transformed.no plan) ∧
    (∀ p', (replace_with_order_preserving_variants_up plan conn opc b1 b2 cfg).1 =
        Transformed.yes p' →
      is_sort plan = true ∧ opc.headD none = some p') := by
  refine ⟨rfl, rfl, ?_, ?_⟩
  · intro h
    simp only [replace_with_order_preserving_variants_up]
    rw [h]
    simp only [Bool.false_eq_true, if_false]
    split
    · rfl
    · split
      · rfl
      · rfl
  · intro p' hp
    by_cases h : is_sort plan = true
    · refine ⟨h, ?_⟩
      simp only [replace_with_order_preserving_variants_up, h, if_true] at hp
      rcases ho : opc.headD none with _ | alt
      · rw [ho] at hp
        exact absurd hp (by simp)
      · rw [ho] at hp
        by_cases hs : (equivalence_properties alt).ordering_satisfy
            ((output_ordering plan).getD []) = true
        · simp only [hs, if_true] at hp
          injection hp with hp
          rw [hp]
        · simp [hs] at hp
    · rw [Bool.not_eq_true] at h
      simp only [replace_with_order_preserving_variants_up, h] at hp
      simp only [Bool.false_eq_true, if_false] at hp
      revert hp
      split
      · intro hp
        exact absurd hp (by simp)
      · split
        · intro hp
          exact absurd hp (by simp)
        · intro hp
          exact absurd hp (by simp)

/-- C7 witness: at a non-sort concrete node the upward rewriter returns the
node untransformed. -/
theorem claim_C7_witness :
    (replace_with_order_preserving_variants_up leafNode false [] false false
      ⟨⟨false⟩⟩).1 = Transformed.no leafNode :=
  (claim_C7 leafNode false [] false false ⟨⟨false⟩⟩).2.2.1 rfl

/-- C10: a sort node whose required-ordering accessor returns none is
replaced unconditionally by a present child alternative, since the required
ordering defaults to the empty sequence, which satisfaction trivially
accepts. -/
theorem claim_C10 (c alt : PlanNode) (conn b1 b2 : Bool) (cfg : ConfigOptions) :
    replace_with_order_preserving_variants_up (PlanNode.sort none c) conn
        [some alt] b1 b2 cfg = (Transformed.yes alt, none) := by
  simp [replace_with_order_preserving_variants_up, is_sort, output_ordering,
    EquivalenceProperties.ordering_satisfy]

/-- The node reached from `plan` by following a path of child indices. -/
def node_at : PlanNode → List Nat → Option PlanNode
  | p, [] => some p
  | p, i :: rest =>
    match (children p).get? i with
    | some c => node_at c rest
    | none => none

/-- The ordering-connection flag the downward pass delivers to the node at a
path of child indices, starting from `plan` with inherited flag `conn`:
each step reads the per-edge flag vector computed by
`propagate_order_maintaining_connections_down` at the current node. -/
def connection_at : PlanNode → Bool → List Nat → Option Bool
  | _, conn, [] => some conn
  | plan, conn, i :: rest =>
    match (children plan).get? i,
        (propagate_order_maintaining_connections_down plan conn).2.1.get? i with
    | some c, some f => connection_at c f rest
    | _, _ => none

theorem node_at_append (plan : PlanNode) (p q : List Nat) :
    node_at plan (p ++ q) = (node_at plan p).bind fun t => node_at t q := by
  induction p generalizing plan with
  | nil => simp [node_at]
  | cons i rest ih =>
    simp only [List.cons_append, node_at]
    cases (children plan).get? i with
    | none => simp
    | some c => exact ih c

theorem connection_at_append (plan : PlanNode) (conn : Bool) (p q : List Nat) :
    connection_at plan conn (p ++ q) =
      match node_at plan p, connection_at plan conn p with
      | some t, some f => connection_at t f q
      | _, _ => none := by
  induction p generalizing plan conn with
  | nil => simp [node_at, connection_at]
  | cons i rest ih =>
    simp only [List.cons_append, node_at, connection_at]
    cases hc : (children plan).get? i with
    | none => simp
    | some c =>
      cases hf :
          (propagate_order_maintaining_connections_down plan conn).2.1.get? i with
      | none =>
        cases hn : node_at c rest <;> simp
      | some f => exact ih c f

/-- One step of the invariant: below a non-sort node with inherited flag
false, every child edge's flag is false. -/
theorem down_flags_false_step (plan : PlanNode) (h : is_sort plan = false)
    (i : Nat) (f : Bool)
    (hf : (propagate_order_maintaining_connections_down plan false).2.1.get? i =
      some f) :
    f = false := by
  simp only [propagate_order_maintaining_connections_down, h,
    Bool.false_eq_true, if_false, List.get?_map, Bool.false_and] at hf
  cases hm : (maintains_input_order plan).get? i with
  | none => rw [hm] at hf; simp at hf
  | some mio => rw [hm] at hf; simp at hf; exact hf

theorem connection_at_stays_false (q : List Nat) :
    ∀ t : PlanNode,
      (∀ n, n < q.length → ∀ nd, node_at t (q.take n) = some nd →
        is_sort nd = false) →
      connection_at t false q ≠ none →
      connection_at t false q = some false := by
  induction q with
  | nil => intro t _ _; rfl
  | cons i rest ih =>
    intro t hsorts hdef
    have ht : is_sort t = false := by
      refine hsorts 0 (by simp) t ?_
      simp [node_at]
    simp only [connection_at] at hdef ⊢
    cases hc : (children t).get? i with
    | none => rw [hc] at hdef; simp at hdef
    | some c =>
      cases hf :
          (propagate_order_maintaining_connections_down t false).2.1.get? i with
      | none => rw [hc, hf] at hdef; simp at hdef
      | some f =>
        have hf0 : f = false := down_flags_false_step t ht i f hf
        subst hf0
        rw [hc, hf] at hdef
        have hdef' : connection_at c false rest ≠ none := hdef
        show connection_at c false rest = some false
        refine ih c ?_ hdef'
        intro n hn nd hnd
        refine hsorts (n + 1) (by simpa using hn) nd ?_
        simp only [List.take_succ_cons, node_at, hc]
        exact hnd

/-- C5: invariant of the downward pass — once the ordering-connection flag is
false at a node (path `p`), it remains false along every descending path `q`
whose intermediate nodes contain no explicit sort; no rule other than the
sort rule turns a false inherited flag into a true child flag. -/
theorem claim_C5 (plan : PlanNode) (conn : Bool) (p q : List Nat)
    (hfalse : connection_at plan conn p = some false)
    (hsorts : ∀ n, n < q.length → ∀ nd, node_at plan (p ++ q.take n) = some nd →
      is_sort nd = false)
    (hdef : connection_at plan conn (p ++ q) ≠ none) :
    connection_at plan conn (p ++ q) = some false := by
  rw [connection_at_append] at hdef ⊢
  cases hn : node_at plan p with
  | none => rw [hn] at hdef; simp at hdef
  | some t =>
    rw [hfalse] at hdef ⊢
    rw [hn] at hdef
    have hdef' : connection_at t false q ≠ none := hdef
    show connection_at t false q = some false
    refine connection_at_stays_false q t ?_ hdef'
    intro n hnlt nd hnd
    refine hsorts n hnlt nd ?_
    rw [node_at_append, hn]
    exact hnd

/-- C5 witness: below a coalesce-partitions node entered with flag false, the
child edge's flag is false. -/
theorem claim_C5_witness :
    connection_at (PlanNode.coalescePartitions leafNode) false ([] ++ [0]) =
      some false := by
  refine claim_C5 (PlanNode.coalescePartitions leafNode) false [] [0] rfl ?_ ?_
  · intro n hn nd hnd
    have hn0 : n = 0 := Nat.lt_one_iff.mp (by simpa using hn)
    subst hn0
    simp only [List.take, List.nil_append, node_at, Option.some.injEq] at hnd
    rw [hnd.symm]
    rfl
  · decide

mutual

/-- Number of operators in a plan tree (used as a termination measure). -/
def planSize : PlanNode → Nat
  | .sort _ c => 1 + planSize c
  | .repartition _ _ c => 1 + planSize c
  | .coalescePartitions c => 1 + planSize c
  | .sortPreservingMerge _ c => 1 + planSize c
  | .generic _ cs => 1 + planPairsSize cs

/-- Total size of the subtrees hanging off a generic node's edge list. -/
def planPairsSize : List (Bool × PlanNode) → Nat
  | [] => 0
  | (_, c) :: cs => planSize c + planPairsSize cs

end

/-- Total size of a list of subtrees. -/
def planListSize : List PlanNode → Nat
  | [] => 0
  | c :: cs => planSize c + planListSize cs

theorem planSize_pos (p : PlanNode) : 0 < planSize p := by
  cases p <;> simp [planSize]

theorem planListSize_map_snd (cs : List (Bool × PlanNode)) :
    planListSize (cs.map Prod.snd) = planPairsSize cs := by
  induction cs with
  | nil => rfl
  | cons bc rest ih => simp [planListSize, planPairsSize, ih]

theorem children_planListSize_lt (plan : PlanNode) :
    planListSize (children plan) < planSize plan := by
  cases plan <;>
    simp [children, planSize, planListSize, planListSize_map_snd] <;> omega

theorem mem_pairs_size_le {bc : Bool × PlanNode} {cs : List (Bool × PlanNode)}
    (h : bc ∈ cs) : planSize bc.2 ≤ planPairsSize cs := by
  induction cs with
  | nil => cases h
  | cons hd rest ih =>
    rcases List.mem_cons.mp h with h | h
    · subst h; cases bc with | mk b c => simp [planPairsSize] <;> omega
    · have := ih h
      cases hd with | mk b c => simp [planPairsSize] <;> omega

theorem mem_children_size_lt (plan : PlanNode) (c : PlanNode)
    (h : c ∈ children plan) : planSize c < planSize plan := by
  cases plan with
  | generic caps cs =>
    simp only [children, List.mem_map] at h
    obtain ⟨bc, hbc, rfl⟩ := h
    have := mem_pairs_size_le hbc
    simp [planSize]; omega
  | sort o c' =>
    simp only [children, List.mem_singleton] at h
    subst h; simp [planSize]
  | repartition p pres c' =>
    simp only [children, List.mem_singleton] at h
    subst h; simp [planSize]
  | coalescePartitions c' =>
    simp only [children, List.mem_singleton] at h
    subst h; simp [planSize]
  | sortPreservingMerge o c' =>
    simp only [children, List.mem_singleton] at h
    subst h; simp [planSize]

/-- The per-edge flag vector issued by the downward pass. -/
def down_flags (plan : PlanNode) (conn : Bool) : List Bool :=
  (propagate_order_maintaining_connections_down plan conn).2.1

theorem down_flags_length (plan : PlanNode) (conn : Bool) :
    (down_flags plan conn).length = (children plan).length := by
  cases plan <;>
    simp [down_flags, propagate_order_maintaining_connections_down, is_sort,
      children, maintains_input_order]

mutual

/-- Modelled from the spec: the external traversal engine
(`TreeNode.transform_with_payload`) specialized to this pass — a single
combined top-down-then-bottom-up walk that calls the downward propagator at a
node, recurses into the children threading one flag per edge, rebuilds the
node with the returned children, and calls the upward rewriter with the
node's own flag and the children's alternative payloads.  The downward step
never rewrites (it always returns `Transformed.no`), so the engine recurses
into the node's own children. -/
def transform_with_payload (is_spr_better is_spm_better : Bool)
    (config : ConfigOptions) (plan : PlanNode) (ordering_connection : Bool) :
    PlanNode × Option PlanNode :=
  let rs := transform_children is_spr_better is_spm_better config
    (children plan) (down_flags plan ordering_connection)
  let rebuilt := with_new_children plan (rs.map Prod.fst)
  let u := replace_with_order_preserving_variants_up rebuilt
    (propagate_order_maintaining_connections_down plan ordering_connection).2.2
    (rs.map Prod.snd) is_spr_better is_spm_better config
  (u.1.value, u.2)
termination_by 2 * planSize plan
decreasing_by
  have := children_planListSize_lt plan
  omega

/-- The engine's recursion into a child list, pairing children with flags. -/
def transform_children (is_spr_better is_spm_better : Bool)
    (config : ConfigOptions) :
    List PlanNode → List Bool → List (PlanNode × Option PlanNode)
  | [], _ => []
  | _ :: _, [] => []
  | c :: cs, f :: fs =>
    transform_with_payload is_spr_better is_spm_better config c f ::
      transform_children is_spr_better is_spm_better config cs fs
termination_by cs _ => 2 * planListSize cs + 1
decreasing_by
  · simp [planListSize]
    have := planSize_pos c
    omega
  · simp [planListSize]
    have := planSize_pos c
    omega

end

/-- Modelled from the spec: the optimizer-rule entry point — one engine
traversal from the root, whose inherited connection flag is false since no
sort governs the root. -/
def replace_with_order_preserving_variants (is_spr_better is_spm_better : Bool)
    (config : ConfigOptions) (plan : PlanNode) : PlanNode :=
  (transform_with_payload is_spr_better is_spm_better config plan false).1

@[simp] theorem Transformed.value_no {α : Type} (a : α) :
    (Transformed.no a).value = a := rfl

@[simp] theorem Transformed.value_yes {α : Type} (a : α) :
    (Transformed.yes a).value = a := rfl

theorem unbounded_any_false {cs : List (Bool × PlanNode)}
    (h : unbounded_output_any cs = false) :
    ∀ bc ∈ cs, unbounded_output bc.2 = false := by
  induction cs with
  | nil => intro bc hbc; cases hbc
  | cons hd rest ih =>
    intro bc hbc
    rcases hd with ⟨b, c⟩
    simp only [unbounded_output_any, Bool.or_eq_false_iff] at h
    rcases List.mem_cons.mp hbc with h1 | h1
    · subst h1; exact h.1
    · exact ih h.2 bc h1

theorem unbounded_child (plan : PlanNode) (hb : unbounded_output plan = false) :
    ∀ c ∈ children plan, unbounded_output c = false := by
  cases plan with
  | generic caps cs =>
    intro c hcm
    simp only [children, List.mem_map] at hcm
    obtain ⟨bc, hbc, rfl⟩ := hcm
    simp only [unbounded_output, Bool.or_eq_false_iff] at hb
    exact unbounded_any_false hb.2 bc hbc
  | sort o c' =>
    intro c hcm
    simp only [children, List.mem_singleton] at hcm
    subst hcm
    simpa [unbounded_output] using hb
  | repartition p pres c' =>
    intro c hcm
    simp only [children, List.mem_singleton] at hcm
    subst hcm
    simpa [unbounded_output] using hb
  | coalescePartitions c' =>
    intro c hcm
    simp only [children, List.mem_singleton] at hcm
    subst hcm
    simpa [unbounded_output] using hb
  | sortPreservingMerge o c' =>
    intro c hcm
    simp only [children, List.mem_singleton] at hcm
    subst hcm
    simpa [unbounded_output] using hb

theorem with_new_children_self (plan : PlanNode) :
    with_new_children plan (children plan) = plan := by
  cases plan <;> simp [with_new_children, children, List.zip_map']

theorem tw_eq (b1 b2 : Bool) (cfg : ConfigOptions) (plan : PlanNode)
    (conn : Bool) :
    transform_with_payload b1 b2 cfg plan conn =
      ((replace_with_order_preserving_variants_up
          (with_new_children plan
            ((transform_children b1 b2 cfg (children plan)
              (down_flags plan conn)).map Prod.fst))
          conn
          ((transform_children b1 b2 cfg (children plan)
            (down_flags plan conn)).map Prod.snd)
          b1 b2 cfg).1.value,
       (replace_with_order_preserving_variants_up
          (with_new_children plan
            ((transform_children b1 b2 cfg (children plan)
              (down_flags plan conn)).map Prod.fst))
          conn
          ((transform_children b1 b2 cfg (children plan)
            (down_flags plan conn)).map Prod.snd)
          b1 b2 cfg).2) := by
  rw [transform_with_payload]
  rfl

theorem transform_children_nil (b1 b2 : Bool) (cfg : ConfigOptions)
    (fs : List Bool) :
    transform_children b1 b2 cfg [] fs = [] := by
  rw [transform_children]

theorem transform_children_nil_flags (b1 b2 : Bool) (cfg : ConfigOptions)
    (c : PlanNode) (cs : List PlanNode) :
    transform_children b1 b2 cfg (c :: cs) [] = [] := by
  rw [transform_children]

theorem transform_children_cons (b1 b2 : Bool) (cfg : ConfigOptions)
    (c : PlanNode) (cs : List PlanNode) (f : Bool) (fs : List Bool) :
    transform_children b1 b2 cfg (c :: cs) (f :: fs) =
      transform_with_payload b1 b2 cfg c f ::
        transform_children b1 b2 cfg cs fs := by
  rw [transform_children]

theorem transform_children_id (b1 b2 : Bool) (cfg : ConfigOptions)
    (cs : List PlanNode) (fs : List Bool)
    (ih : ∀ c ∈ cs, ∀ f, transform_with_payload b1 b2 cfg c f = (c, none)) :
    transform_children b1 b2 cfg cs fs =
      (cs.take fs.length).map fun c => (c, none) := by
  induction cs generalizing fs with
  | nil => simp [transform_children_nil]
  | cons c cs' ihl =>
    cases fs with
    | nil => simp [transform_children_nil_flags]
    | cons f fs' =>
      rw [transform_children_cons, ih c (by simp) f,
        ihl fs' fun x hx f' => ih x (by simp [hx]) f']
      simp

theorem map_fst_pair_none {α β : Type} (l : List α) :
    (l.map fun c => (c, (none : Option β))).map Prod.fst = l := by
  induction l with
  | nil => rfl
  | cons a l' ih => simp [ih]

theorem map_none_eq_replicate {α β : Type} (l : List α) :
    (l.map fun _ => (none : Option β)) = List.replicate l.length none := by
  induction l with
  | nil => rfl
  | cons a l' ih => simp [List.replicate, ih]

theorem any_isSome_replicate_none {β : Type} (n : Nat) :
    (List.replicate n (none : Option β)).any Option.isSome = false := by
  induction n with
  | zero => rfl
  | succ m ih => simpa [List.replicate] using ih

/-- Conservativeness: with both kind flags false, the global flag false, and
a bounded subtree, the traversal returns the plan unchanged and propagates no
alternative. -/
theorem pass_conservative (cfg : ConfigOptions)
    (hc : cfg.optimizer.prefer_existing_sort = false)
    (plan : PlanNode) (hb : unbounded_output plan = false) (conn : Bool) :
    transform_with_payload false false cfg plan conn = (plan, none) := by
  have hrec : ∀ c ∈ children plan, ∀ f,
      transform_with_payload false false cfg c f = (c, none) := by
    intro c hcm f
    exact pass_conservative cfg hc c (unbounded_child plan hb c hcm) f
  rw [tw_eq]
  rw [transform_children_id false false cfg (children plan)
    (down_flags plan conn) hrec]
  rw [down_flags_length, List.take_length]
  have h1 : ((children plan).map fun c =>
      (c, (none : Option PlanNode))).map Prod.fst = children plan :=
    map_fst_pair_none (children plan)
  have h2 : ((children plan).map fun c =>
      (c, (none : Option PlanNode))).map Prod.snd =
      List.replicate (children plan).length none := by
    rw [List.map_map]
    exact map_none_eq_replicate (children plan)
  rw [h1, h2, with_new_children_self]
  suffices hup : replace_with_order_preserving_variants_up plan conn
      (List.replicate (children plan).length none) false false cfg =
      (Transformed.no plan, none) by
    rw [hup]; simp
  cases plan <;>
    simp [replace_with_order_preserving_variants_up, is_sort, is_repartition,
      is_coalesce_partitions, children, maintains_input_order, hb, hc,
      any_isSome_replicate_none, List.replicate]
termination_by planSize plan
decreasing_by exact mem_children_size_lt plan c hcm

/-- C8: with both kind-level profitability flags false, the global
prefer-existing-sort flag false, and a bounded source, the optimized plan is
structurally identical to the input plan (no sort can become redundant since
no alternative is ever constructed, so the identity holds unconditionally). -/
theorem claim_C8 (plan : PlanNode) (conn : Bool)
    (hb : unbounded_output plan = false) :
    transform_with_payload false false
      { optimizer := { prefer_existing_sort := false } } plan conn =
      (plan, none) :=
  pass_conservative { optimizer := { prefer_existing_sort := false } } rfl
    plan hb conn

/-- C8 witness: a concrete bounded sort-over-coalesce plan is returned
untouched with all flags off. -/
theorem claim_C8_witness :
    transform_with_payload false false
        { optimizer := { prefer_existing_sort := false } }
        (PlanNode.sort (some [akey]) (PlanNode.coalescePartitions sortedLeaf))
        false =
      (PlanNode.sort (some [akey]) (PlanNode.coalescePartitions sortedLeaf),
       none) :=
  claim_C8 (PlanNode.sort (some [akey]) (PlanNode.coalescePartitions sortedLeaf))
    false rfl

theorem unbounded_sort (o : Option PhysicalOrdering) (c : PlanNode) :
    unbounded_output (.sort o c) = unbounded_output c := rfl

theorem unbounded_rep (p : Partitioning) (pres : Bool) (c : PlanNode) :
    unbounded_output (.repartition p pres c) = unbounded_output c := rfl

theorem unbounded_coalesce (c : PlanNode) :
    unbounded_output (.coalescePartitions c) = unbounded_output c := rfl

theorem unbounded_spm (o : PhysicalOrdering) (c : PlanNode) :
    unbounded_output (.sortPreservingMerge o c) = unbounded_output c := rfl

theorem unbounded_generic (caps : GenericCaps) (ps : List (Bool × PlanNode)) :
    unbounded_output (.generic caps ps) =
      (caps.unboundedSource || unbounded_output_any ps) := rfl

theorem down_flags_sort (o : Option PhysicalOrdering) (c : PlanNode)
    (conn : Bool) : down_flags (.sort o c) conn = [true] := rfl

theorem down_flags_rep (p : Partitioning) (pres : Bool) (c : PlanNode)
    (conn : Bool) : down_flags (.repartition p pres c) conn = [conn] := by
  simp [down_flags, propagate_order_maintaining_connections_down, is_sort,
    is_repartition, is_coalesce_partitions, maintains_input_order]

theorem down_flags_coalesce (c : PlanNode) (conn : Bool) :
    down_flags (.coalescePartitions c) conn = [conn] := by
  simp [down_flags, propagate_order_maintaining_connections_down, is_sort,
    is_repartition, is_coalesce_partitions, maintains_input_order]

theorem down_flags_spm (o : PhysicalOrdering) (c : PlanNode) (conn : Bool) :
    down_flags (.sortPreservingMerge o c) conn = [conn] := by
  simp [down_flags, propagate_order_maintaining_connections_down, is_sort,
    is_repartition, is_coalesce_partitions, maintains_input_order]

theorem down_flags_generic (caps : GenericCaps) (ps : List (Bool × PlanNode))
    (conn : Bool) :
    down_flags (.generic caps ps) conn = ps.map fun bc => conn && bc.1 := by
  simp [down_flags, propagate_order_maintaining_connections_down, is_sort,
    is_repartition, is_coalesce_partitions, maintains_input_order,
    List.map_map, Function.comp]

theorem transform_children_map (b1 b2 : Bool) (cfg : ConfigOptions)
    (ps : List (Bool × PlanNode)) (f : Bool → Bool) :
    transform_children b1 b2 cfg (ps.map Prod.snd) (ps.map fun bc => f bc.1) =
      ps.map fun bc => transform_with_payload b1 b2 cfg bc.2 (f bc.1) := by
  induction ps with
  | nil => simp [transform_children_nil]
  | cons bc rest ih =>
    simp only [List.map_cons]
    rw [transform_children_cons, ih]

/-- One-step evaluation of the traversal at a sort node: the child is visited
with flag true, the sort consumes the child's alternative. -/
theorem tw_sort_eq (b1 b2 : Bool) (cfg : ConfigOptions)
    (o : Option PhysicalOrdering) (c : PlanNode) (conn : Bool) :
    transform_with_payload b1 b2 cfg (.sort o c) conn =
      match (transform_with_payload b1 b2 cfg c true).2 with
      | some alt =>
        if (equivalence_properties alt).ordering_satisfy (o.getD []) then
          (alt, none)
        else
          (.sort o (transform_with_payload b1 b2 cfg c true).1, none)
      | none => (.sort o (transform_with_payload b1 b2 cfg c true).1, none) := by
  rw [tw_eq]
  rw [show children (.sort o c) = [c] from rfl, down_flags_sort]
  rw [transform_children_cons, transform_children_nil]
  simp only [List.map_cons, List.map_nil]
  rw [show with_new_children (.sort o c)
      [(transform_with_payload b1 b2 cfg c true).1] =
      .sort o (transform_with_payload b1 b2 cfg c true).1 from rfl]
  cases h2 : (transform_with_payload b1 b2 cfg c true).2 with
  | none =>
    simp [replace_with_order_preserving_variants_up, is_sort, output_ordering]
  | some alt =>
    by_cases hs : (equivalence_properties alt).ordering_satisfy (o.getD []) = true
    · simp [replace_with_order_preserving_variants_up, is_sort,
        output_ordering, hs]
    · simp [replace_with_order_preserving_variants_up, is_sort,
        output_ordering, hs]

/-- One-step evaluation at a repartition node: the child is visited with the
inherited flag; the order-preserving swap fires under the guard, else the
default rebuilding applies. -/
theorem tw_rep_eq (b1 b2 : Bool) (cfg : ConfigOptions) (p : Partitioning)
    (pres : Bool) (c : PlanNode) (conn : Bool) :
    transform_with_payload b1 b2 cfg (.repartition p pres c) conn =
      (.repartition p pres (transform_with_payload b1 b2 cfg c conn).1,
       if conn && (!pres && (b1 || (cfg.optimizer.prefer_existing_sort ||
           unbounded_output (transform_with_payload b1 b2 cfg c conn).1))) then
         some (.repartition p true
           ((transform_with_payload b1 b2 cfg c conn).2.getD
             (transform_with_payload b1 b2 cfg c conn).1))
       else if (transform_with_payload b1 b2 cfg c conn).2.isSome then
         some (.repartition p pres
           ((transform_with_payload b1 b2 cfg c conn).2.getD
             (transform_with_payload b1 b2 cfg c conn).1))
       else none) := by
  rw [tw_eq]
  rw [show children (.repartition p pres c) = [c] from rfl, down_flags_rep]
  rw [transform_children_cons, transform_children_nil]
  simp only [List.map_cons, List.map_nil]
  rw [show with_new_children (.repartition p pres c)
      [(transform_with_payload b1 b2 cfg c conn).1] =
      .repartition p pres (transform_with_payload b1 b2 cfg c conn).1 from rfl]
  cases h2 : (transform_with_payload b1 b2 cfg c conn).2 with
  | none =>
    simp [replace_with_order_preserving_variants_up, is_sort, is_repartition,
      is_coalesce_partitions, maintains_input_order, children, unbounded_rep,
      with_preserve_order, RepartitionExec.try_new, output_partitioning,
      with_new_children]
    refine ⟨?_, ?_⟩
    · split <;> rfl
    · split_ifs <;> first | rfl | tauto
  | some alt =>
    simp [replace_with_order_preserving_variants_up, is_sort, is_repartition,
      is_coalesce_partitions, maintains_input_order, children, unbounded_rep,
      with_preserve_order, RepartitionExec.try_new, output_partitioning,
      with_new_children]
    refine ⟨?_, ?_⟩
    · split <;> rfl
    · split_ifs <;> first | rfl | tauto

/-- One-step evaluation at a coalesce-partitions node. -/
theorem tw_coalesce_eq (b1 b2 : Bool) (cfg : ConfigOptions) (c : PlanNode)
    (conn : Bool) :
    transform_with_payload b1 b2 cfg (.coalescePartitions c) conn =
      (.coalescePartitions (transform_with_payload b1 b2 cfg c conn).1,
       if conn && (b2 || (cfg.optimizer.prefer_existing_sort ||
           unbounded_output (transform_with_payload b1 b2 cfg c conn).1)) then
         (output_ordering ((transform_with_payload b1 b2 cfg c conn).2.getD
             (transform_with_payload b1 b2 cfg c conn).1)).map fun o =>
           .sortPreservingMerge o
             ((transform_with_payload b1 b2 cfg c conn).2.getD
               (transform_with_payload b1 b2 cfg c conn).1)
       else if (transform_with_payload b1 b2 cfg c conn).2.isSome then
         some (.coalescePartitions
           ((transform_with_payload b1 b2 cfg c conn).2.getD
             (transform_with_payload b1 b2 cfg c conn).1))
       else none) := by
  rw [tw_eq]
  rw [show children (.coalescePartitions c) = [c] from rfl, down_flags_coalesce]
  rw [transform_children_cons, transform_children_nil]
  simp only [List.map_cons, List.map_nil]
  rw [show with_new_children (.coalescePartitions c)
      [(transform_with_payload b1 b2 cfg c conn).1] =
      .coalescePartitions (transform_with_payload b1 b2 cfg c conn).1 from rfl]
  cases h2 : (transform_with_payload b1 b2 cfg c conn).2 with
  | none =>
    simp [replace_with_order_preserving_variants_up, is_sort, is_repartition,
      is_coalesce_partitions, maintains_input_order, children,
      unbounded_coalesce, SortPreservingMergeExec.new, with_new_children]
    refine ⟨?_, ?_⟩
    · split <;> rfl
    · split_ifs <;> first | rfl | tauto
  | some alt =>
    simp [replace_with_order_preserving_variants_up, is_sort, is_repartition,
      is_coalesce_partitions, maintains_input_order, children,
      unbounded_coalesce, SortPreservingMergeExec.new, with_new_children]
    refine ⟨?_, ?_⟩
    · split <;> rfl
    · split_ifs <;> first | rfl | tauto

/-- One-step evaluation at a sort-preserving merge node: only the default
rebuilding case applies. -/
theorem tw_spm_eq (b1 b2 : Bool) (cfg : ConfigOptions) (o : PhysicalOrdering)
    (c : PlanNode) (conn : Bool) :
    transform_with_payload b1 b2 cfg (.sortPreservingMerge o c) conn =
      (.sortPreservingMerge o (transform_with_payload b1 b2 cfg c conn).1,
       if (transform_with_payload b1 b2 cfg c conn).2.isSome then
         some (.sortPreservingMerge o
           ((transform_with_payload b1 b2 cfg c conn).2.getD
             (transform_with_payload b1 b2 cfg c conn).1))
       else none) := by
  rw [tw_eq]
  rw [show children (.sortPreservingMerge o c) = [c] from rfl, down_flags_spm]
  rw [transform_children_cons, transform_children_nil]
  simp only [List.map_cons, List.map_nil]
  rw [show with_new_children (.sortPreservingMerge o c)
      [(transform_with_payload b1 b2 cfg c conn).1] =
      .sortPreservingMerge o (transform_with_payload b1 b2 cfg c conn).1 from rfl]
  cases h2 : (transform_with_payload b1 b2 cfg c conn).2 with
  | none =>
    simp [replace_with_order_preserving_variants_up, is_sort, is_repartition,
      is_coalesce_partitions, children, with_new_children]
  | some alt =>
    simp [replace_with_order_preserving_variants_up, is_sort, is_repartition,
      is_coalesce_partitions, children, with_new_children]

/-- One-step evaluation at a generic node: each edge's child is visited with
`inherited AND edge-preservation`, and only the default rebuilding case
applies. -/
theorem tw_generic_eq (b1 b2 : Bool) (cfg : ConfigOptions) (caps : GenericCaps)
    (ps : List (Bool × PlanNode)) (conn : Bool) :
    transform_with_payload b1 b2 cfg (.generic caps ps) conn =
      (.generic caps (ps.map fun bc =>
         (bc.1, (transform_with_payload b1 b2 cfg bc.2 (conn && bc.1)).1)),
       if (ps.map fun bc =>
           (transform_with_payload b1 b2 cfg bc.2 (conn && bc.1)).2).any
           Option.isSome then
         some (.generic caps (ps.map fun bc =>
           (bc.1, (transform_with_payload b1 b2 cfg bc.2 (conn && bc.1)).2.getD
             (transform_with_payload b1 b2 cfg bc.2 (conn && bc.1)).1)))
       else none) := by
  rw [tw_eq]
  rw [show children (.generic caps ps) = ps.map Prod.snd from rfl,
    down_flags_generic, transform_children_map]
  simp only [List.map_map]
  rw [show with_new_children (.generic caps ps)
      (ps.map (Prod.fst ∘ fun bc =>
        transform_with_payload b1 b2 cfg bc.2 (conn && bc.1))) =
      .generic caps ((ps.map Prod.fst).zip (ps.map (Prod.fst ∘ fun bc =>
        transform_with_payload b1 b2 cfg bc.2 (conn && bc.1)))) from rfl]
  rw [List.zip_map']
  simp only [replace_with_order_preserving_variants_up, is_sort,
    is_repartition, is_coalesce_partitions, Bool.false_and, Bool.and_false,
    Bool.false_eq_true, if_false, children, with_new_children, List.map_map,
    List.zip_map', Function.comp, Transformed.value_no]
  have hcomp : (Prod.snd ∘ fun bc : Bool × PlanNode =>
      transform_with_payload b1 b2 cfg bc.2 (conn && bc.1)) =
      fun bc : Bool × PlanNode =>
        (transform_with_payload b1 b2 cfg bc.2 (conn && bc.1)).2 := rfl
  rw [hcomp]

theorem mem_pair_size_lt {bc : Bool × PlanNode} {caps : GenericCaps}
    {ps : List (Bool × PlanNode)} (h : bc ∈ ps) :
    planSize bc.2 < planSize (.generic caps ps) := by
  have := mem_pairs_size_le h
  simp [planSize]
  omega

/-- The tree component of the traversal's result does not depend on the
inherited connection flag: only alternative construction does, and a sort's
child is always visited with flag true. -/
theorem tw_fst_flag_indep (b1 b2 : Bool) (cfg : ConfigOptions)
    (plan : PlanNode) :
    ∀ conn conn', (transform_with_payload b1 b2 cfg plan conn).1 =
      (transform_with_payload b1 b2 cfg plan conn').1 := by
  intro conn conn'
  cases plan with
  | sort o c => rw [tw_sort_eq, tw_sort_eq]
  | repartition p pres c =>
    simp only [tw_rep_eq]
    rw [tw_fst_flag_indep b1 b2 cfg c conn conn']
  | coalescePartitions c =>
    simp only [tw_coalesce_eq]
    rw [tw_fst_flag_indep b1 b2 cfg c conn conn']
  | sortPreservingMerge o c =>
    simp only [tw_spm_eq]
    rw [tw_fst_flag_indep b1 b2 cfg c conn conn']
  | generic caps ps =>
    simp only [tw_generic_eq]
    congr 1
    refine List.map_congr_left ?_
    intro bc hbc
    rw [tw_fst_flag_indep b1 b2 cfg bc.2 (conn && bc.1) (conn' && bc.1)]
termination_by planSize plan
decreasing_by
  all_goals first
    | exact mem_pair_size_lt (by assumption)
    | (simp [planSize] <;> omega)

/-- With inherited connection flag false, no alternative is ever propagated:
alternatives originate only under a true flag, and a sort consumes its
child's alternative without propagating it. -/
theorem tw_snd_conn_false (b1 b2 : Bool) (cfg : ConfigOptions)
    (plan : PlanNode) :
    (transform_with_payload b1 b2 cfg plan false).2 = none := by
  cases plan with
  | sort o c =>
    rw [tw_sort_eq]
    cases h : (transform_with_payload b1 b2 cfg c true).2 with
    | none => rfl
    | some alt => split <;> first | rfl | (split <;> rfl)
  | repartition p pres c =>
    simp [tw_rep_eq, tw_snd_conn_false b1 b2 cfg c]
  | coalescePartitions c =>
    simp [tw_coalesce_eq, tw_snd_conn_false b1 b2 cfg c]
  | sortPreservingMerge o c =>
    simp [tw_spm_eq, tw_snd_conn_false b1 b2 cfg c]
  | generic caps ps =>
    simp only [tw_generic_eq]
    have hmap : (ps.map fun bc =>
        (transform_with_payload b1 b2 cfg bc.2 (false && bc.1)).2) =
        ps.map fun _ => none := by
      refine List.map_congr_left ?_
      intro bc hbc
      rw [Bool.false_and]
      exact tw_snd_conn_false b1 b2 cfg bc.2
    rw [hmap, map_none_eq_replicate, any_isSome_replicate_none]
    rfl
termination_by planSize plan
decreasing_by
  all_goals first
    | exact mem_pair_size_lt (by assumption)
    | (simp [planSize] <;> omega)

theorem unbounded_any_cons (x : Bool × PlanNode) (cs : List (Bool × PlanNode)) :
    unbounded_output_any (x :: cs) =
      (unbounded_output x.2 || unbounded_output_any cs) := rfl

theorem unbounded_any_map (ps : List (Bool × PlanNode))
    (f : Bool × PlanNode → Bool × PlanNode)
    (h : ∀ bc ∈ ps, unbounded_output (f bc).2 = unbounded_output bc.2) :
    unbounded_output_any (ps.map f) = unbounded_output_any ps := by
  induction ps with
  | nil => rfl
  | cons bc rest ih =>
    simp only [List.map_cons, unbounded_any_cons]
    rw [h bc (by simp), ih fun x hx => h x (by simp [hx])]

/-- Boundedness is invariant under the traversal: the result tree and any
propagated alternative have the same boundedness as the node they came from
(alternatives reuse the node's subtrees). -/
theorem tw_unbounded (b1 b2 : Bool) (cfg : ConfigOptions) (plan : PlanNode) :
    (∀ conn, unbounded_output ((transform_with_payload b1 b2 cfg plan conn).1) =
      unbounded_output plan) ∧
    (∀ conn x, (transform_with_payload b1 b2 cfg plan conn).2 = some x →
      unbounded_output x = unbounded_output plan) := by
  cases plan with
  | sort o c =>
    have IH := tw_unbounded b1 b2 cfg c
    constructor
    · intro conn
      rw [tw_sort_eq]
      cases h : (transform_with_payload b1 b2 cfg c true).2 with
      | none =>
        show unbounded_output
            (.sort o (transform_with_payload b1 b2 cfg c true).1) =
          unbounded_output (.sort o c)
        rw [unbounded_sort, unbounded_sort, IH.1 true]
      | some alt =>
        have hred : unbounded_output
            ((match (some alt : Option PlanNode) with
              | some a =>
                if (equivalence_properties a).ordering_satisfy (o.getD []) = true
                then (a, (none : Option PlanNode))
                else (PlanNode.sort o
                  (transform_with_payload b1 b2 cfg c true).1, none)
              | none => (PlanNode.sort o
                  (transform_with_payload b1 b2 cfg c true).1, none)).1) =
            unbounded_output
            ((if (equivalence_properties alt).ordering_satisfy (o.getD []) = true
              then (alt, (none : Option PlanNode))
              else (PlanNode.sort o
                (transform_with_payload b1 b2 cfg c true).1, none)).1) := rfl
        rw [hred]
        by_cases hs : (equivalence_properties alt).ordering_satisfy
            (o.getD []) = true
        · rw [if_pos hs]
          show unbounded_output alt = unbounded_output (.sort o c)
          rw [unbounded_sort]
          exact IH.2 true alt h
        · rw [if_neg hs]
          show unbounded_output
              (.sort o (transform_with_payload b1 b2 cfg c true).1) =
            unbounded_output (.sort o c)
          rw [unbounded_sort, unbounded_sort, IH.1 true]
    · intro conn x hx
      rw [tw_sort_eq] at hx
      cases h : (transform_with_payload b1 b2 cfg c true).2 with
      | none => rw [h] at hx; simp at hx
      | some alt =>
        rw [h] at hx
        split at hx <;>
          first
            | simp at hx
            | (split at hx <;> simp at hx)
  | repartition p pres c =>
    have IH := tw_unbounded b1 b2 cfg c
    constructor
    · intro conn
      simp only [tw_rep_eq, unbounded_rep]
      exact IH.1 conn
    · intro conn x hx
      simp only [tw_rep_eq] at hx
      split_ifs at hx with h1 h2
      · injection hx with hx
        subst hx
        rw [unbounded_rep, unbounded_rep]
        cases h2c : (transform_with_payload b1 b2 cfg c conn).2 with
        | some alt =>
          simp only [h2c, Option.getD_some]
          exact IH.2 conn alt h2c
        | none =>
          simp only [h2c, Option.getD_none]
          exact IH.1 conn
      · obtain ⟨alt, halt⟩ := Option.isSome_iff_exists.mp h2
        injection hx with hx
        subst hx
        rw [unbounded_rep, unbounded_rep]
        simp only [halt, Option.getD_some]
        exact IH.2 conn alt halt
  | coalescePartitions c =>
    have IH := tw_unbounded b1 b2 cfg c
    constructor
    · intro conn
      simp only [tw_coalesce_eq, unbounded_coalesce]
      exact IH.1 conn
    · intro conn x hx
      simp only [tw_coalesce_eq] at hx
      split_ifs at hx with h1 h2
      · rcases Option.map_eq_some'.mp hx with ⟨o, ho, rfl⟩
        rw [unbounded_spm, unbounded_coalesce]
        cases h2c : (transform_with_payload b1 b2 cfg c conn).2 with
        | some alt =>
          simp only [h2c, Option.getD_some]
          exact IH.2 conn alt h2c
        | none =>
          simp only [h2c, Option.getD_none]
          exact IH.1 conn
      · obtain ⟨alt, halt⟩ := Option.isSome_iff_exists.mp h2
        injection hx with hx
        subst hx
        rw [unbounded_coalesce, unbounded_coalesce]
        simp only [halt, Option.getD_some]
        exact IH.2 conn alt halt
  | sortPreservingMerge o c =>
    have IH := tw_unbounded b1 b2 cfg c
    constructor
    · intro conn
      simp only [tw_spm_eq, unbounded_spm]
      exact IH.1 conn
    · intro conn x hx
      simp only [tw_spm_eq] at hx
      split_ifs at hx with h1
      · obtain ⟨alt, halt⟩ := Option.isSome_iff_exists.mp h1
        injection hx with hx
        subst hx
        rw [unbounded_spm, unbounded_spm]
        simp only [halt, Option.getD_some]
        exact IH.2 conn alt halt
  | generic caps ps =>
    have IH : ∀ bc ∈ ps,
        (∀ conn, unbounded_output
          ((transform_with_payload b1 b2 cfg bc.2 conn).1) =
            unbounded_output bc.2) ∧
        (∀ conn x, (transform_with_payload b1 b2 cfg bc.2 conn).2 = some x →
          unbounded_output x = unbounded_output bc.2) := by
      intro bc hbc
      exact tw_unbounded b1 b2 cfg bc.2
    constructor
    · intro conn
      simp only [tw_generic_eq, unbounded_generic]
      congr 1
      refine unbounded_any_map ps _ ?_
      intro bc hbc
      exact (IH bc hbc).1 (conn && bc.1)
    · intro conn x hx
      simp only [tw_generic_eq] at hx
      split_ifs at hx with hAny
      · injection hx with hx
        subst hx
        simp only [unbounded_generic]
        congr 1
        refine unbounded_any_map ps _ ?_
        intro bc hbc
        cases hbc2 : (transform_with_payload b1 b2 cfg bc.2 (conn && bc.1)).2 with
        | some alt =>
          simp only [hbc2, Option.getD_some]
          exact (IH bc hbc).2 (conn && bc.1) alt hbc2
        | none =>
          simp only [hbc2, Option.getD_none]
          exact (IH bc hbc).1 (conn && bc.1)
termination_by planSize plan
decreasing_by
  all_goals first
    | exact mem_pair_size_lt (by assumption)
    | (simp [planSize] <;> omega)

theorem tw_sort_none (b1 b2 : Bool) (cfg : ConfigOptions)
    (o : Option PhysicalOrdering) (c : PlanNode) (conn : Bool)
    (h : (transform_with_payload b1 b2 cfg c true).2 = none) :
    transform_with_payload b1 b2 cfg (.sort o c) conn =
      (.sort o (transform_with_payload b1 b2 cfg c true).1, none) := by
  rw [tw_sort_eq, h]

theorem tw_sort_some_sat (b1 b2 : Bool) (cfg : ConfigOptions)
    (o : Option PhysicalOrdering) (c : PlanNode) (conn : Bool) (alt : PlanNode)
    (h : (transform_with_payload b1 b2 cfg c true).2 = some alt)
    (hs : (equivalence_properties alt).ordering_satisfy (o.getD []) = true) :
    transform_with_payload b1 b2 cfg (.sort o c) conn = (alt, none) := by
  rw [tw_sort_eq, h]
  simp [hs]

theorem tw_sort_some_unsat (b1 b2 : Bool) (cfg : ConfigOptions)
    (o : Option PhysicalOrdering) (c : PlanNode) (conn : Bool) (alt : PlanNode)
    (h : (transform_with_payload b1 b2 cfg c true).2 = some alt)
    (hs : (equivalence_properties alt).ordering_satisfy (o.getD []) = false) :
    transform_with_payload b1 b2 cfg (.sort o c) conn =
      (.sort o (transform_with_payload b1 b2 cfg c true).1, none) := by
  rw [tw_sort_eq, h]
  simp [hs]

/-- Stability of the traversal: its result tree is a fixed point (under any
flag), reproducing on the second visit exactly the alternatives of the first;
and every propagated alternative is itself fully stable with no further
alternative. -/
theorem tw_stable (b1 b2 : Bool) (cfg : ConfigOptions) (plan : PlanNode) :
    (∀ conn g, transform_with_payload b1 b2 cfg
        ((transform_with_payload b1 b2 cfg plan conn).1) g =
      ((transform_with_payload b1 b2 cfg plan conn).1,
       (transform_with_payload b1 b2 cfg plan g).2)) ∧
    (∀ conn x, (transform_with_payload b1 b2 cfg plan conn).2 = some x →
      ∀ g, transform_with_payload b1 b2 cfg x g = (x, none)) := by
  cases plan with
  | sort o c =>
    have IH := tw_stable b1 b2 cfg c
    constructor
    · intro conn g
      cases h : (transform_with_payload b1 b2 cfg c true).2 with
      | none =>
        rw [tw_sort_none b1 b2 cfg o c conn h, tw_sort_none b1 b2 cfg o c g h]
        have hA := IH.1 true true
        have h2 : (transform_with_payload b1 b2 cfg
            ((transform_with_payload b1 b2 cfg c true).1) true).2 = none := by
          rw [hA]; exact h
        rw [tw_sort_none b1 b2 cfg o
          ((transform_with_payload b1 b2 cfg c true).1) g h2, hA]
      | some alt =>
        by_cases hs : (equivalence_properties alt).ordering_satisfy
            (o.getD []) = true
        · rw [tw_sort_some_sat b1 b2 cfg o c conn alt h hs,
            tw_sort_some_sat b1 b2 cfg o c g alt h hs]
          exact IH.2 true alt h g
        · have hs' : (equivalence_properties alt).ordering_satisfy
              (o.getD []) = false := by simpa using hs
          rw [tw_sort_some_unsat b1 b2 cfg o c conn alt h hs',
            tw_sort_some_unsat b1 b2 cfg o c g alt h hs']
          have hA := IH.1 true true
          have h2 : (transform_with_payload b1 b2 cfg
              ((transform_with_payload b1 b2 cfg c true).1) true).2 =
              some alt := by
            rw [hA]; exact h
          rw [tw_sort_some_unsat b1 b2 cfg o
            ((transform_with_payload b1 b2 cfg c true).1) g alt h2 hs', hA]
    · intro conn x hx
      cases h : (transform_with_payload b1 b2 cfg c true).2 with
      | none => rw [tw_sort_none b1 b2 cfg o c conn h] at hx; simp at hx
      | some alt =>
        by_cases hs : (equivalence_properties alt).ordering_satisfy
            (o.getD []) = true
        · rw [tw_sort_some_sat b1 b2 cfg o c conn alt h hs] at hx
          simp at hx
        · have hs' : (equivalence_properties alt).ordering_satisfy
              (o.getD []) = false := by simpa using hs
          rw [tw_sort_some_unsat b1 b2 cfg o c conn alt h hs'] at hx
          simp at hx
  | repartition p pres c =>
    have IH := tw_stable b1 b2 cfg c
    have IHF := tw_fst_flag_indep b1 b2 cfg c
    have IHU := tw_unbounded b1 b2 cfg c
    have IHZ := tw_snd_conn_false b1 b2 cfg c
    constructor
    · intro conn g
      simp only [tw_rep_eq b1 b2 cfg p pres c conn,
        tw_rep_eq b1 b2 cfg p pres c g]
      rw [tw_rep_eq b1 b2 cfg p pres
        ((transform_with_payload b1 b2 cfg c conn).1) g]
      have hA := IH.1 conn g
      simp only [hA]
      rw [IHF g conn]
    · intro conn x hx
      simp only [tw_rep_eq b1 b2 cfg p pres c conn] at hx
      split_ifs at hx with h1 h2
      · injection hx with hx
        subst hx
        intro g
        have h1' := h1
        simp only [Bool.and_eq_true] at h1'
        have hconn : conn = true := h1'.1
        have hpres : pres = false := by simpa using h1'.2.1
        subst hconn
        subst hpres
        cases h2c : (transform_with_payload b1 b2 cfg c true).2 with
        | some alt =>
          have hB := IH.2 true alt h2c
          simp only [h2c, Option.getD_some]
          rw [tw_rep_eq b1 b2 cfg p true alt g]
          simp only [hB g]
          simp
        | none =>
          simp only [h2c, Option.getD_none]
          rw [tw_rep_eq b1 b2 cfg p true
            ((transform_with_payload b1 b2 cfg c true).1) g]
          have hA := IH.1 true g
          simp only [hA]
          have hg2 : (transform_with_payload b1 b2 cfg c g).2 = none := by
            cases g
            · exact IHZ
            · exact h2c
          simp [hg2]
      · obtain ⟨alt, halt⟩ := Option.isSome_iff_exists.mp h2
        injection hx with hx
        subst hx
        intro g
        simp only [halt, Option.getD_some]
        have hconn : conn = true := by
          cases conn
          · rw [IHZ] at halt
            exact absurd halt (by simp)
          · rfl
        subst hconn
        have hB := IH.2 true alt halt
        rw [tw_rep_eq b1 b2 cfg p pres alt g]
        simp only [hB g]
        have hguard : (!pres && (b1 || (cfg.optimizer.prefer_existing_sort ||
            unbounded_output alt))) = false := by
          rw [IHU.2 true alt halt]
          simp only [Bool.true_and] at h1
          rw [Bool.not_eq_true] at h1
          rw [IHU.1 true] at h1
          exact h1
        simp [hguard]
  | coalescePartitions c =>
    have IH := tw_stable b1 b2 cfg c
    have IHF := tw_fst_flag_indep b1 b2 cfg c
    have IHU := tw_unbounded b1 b2 cfg c
    have IHZ := tw_snd_conn_false b1 b2 cfg c
    constructor
    · intro conn g
      simp only [tw_coalesce_eq b1 b2 cfg c conn, tw_coalesce_eq b1 b2 cfg c g]
      rw [tw_coalesce_eq b1 b2 cfg
        ((transform_with_payload b1 b2 cfg c conn).1) g]
      have hA := IH.1 conn g
      simp only [hA]
      rw [IHF g conn]
    · intro conn x hx
      simp only [tw_coalesce_eq b1 b2 cfg c conn] at hx
      split_ifs at hx with h1 h2
      · rcases Option.map_eq_some'.mp hx with ⟨o, ho, rfl⟩
        intro g
        have h1' := h1
        simp only [Bool.and_eq_true] at h1'
        have hconn : conn = true := h1'.1
        subst hconn
        rw [tw_spm_eq b1 b2 cfg o
          ((transform_with_payload b1 b2 cfg c true).2.getD
            (transform_with_payload b1 b2 cfg c true).1) g]
        cases h2c : (transform_with_payload b1 b2 cfg c true).2 with
        | some alt =>
          have hB := IH.2 true alt h2c
          simp only [h2c, Option.getD_some]
          simp only [hB g]
          simp
        | none =>
          simp only [h2c, Option.getD_none]
          have hA := IH.1 true g
          simp only [hA]
          have hg2 : (transform_with_payload b1 b2 cfg c g).2 = none := by
            cases g
            · exact IHZ
            · exact h2c
          simp [hg2]
      · obtain ⟨alt, halt⟩ := Option.isSome_iff_exists.mp h2
        injection hx with hx
        subst hx
        intro g
        simp only [halt, Option.getD_some]
        have hconn : conn = true := by
          cases conn
          · rw [IHZ] at halt
            exact absurd halt (by simp)
          · rfl
        subst hconn
        have hB := IH.2 true alt halt
        rw [tw_coalesce_eq b1 b2 cfg alt g]
        simp only [hB g]
        have hguard : (b2 || (cfg.optimizer.prefer_existing_sort ||
            unbounded_output alt)) = false := by
          rw [IHU.2 true alt halt]
          simp only [Bool.true_and] at h1
          rw [Bool.not_eq_true] at h1
          rw [IHU.1 true] at h1
          exact h1
        simp [hguard]
  | sortPreservingMerge o c =>
    have IH := tw_stable b1 b2 cfg c
    have IHF := tw_fst_flag_indep b1 b2 cfg c
    constructor
    · intro conn g
      simp only [tw_spm_eq b1 b2 cfg o c conn, tw_spm_eq b1 b2 cfg o c g]
      rw [tw_spm_eq b1 b2 cfg o
        ((transform_with_payload b1 b2 cfg c conn).1) g]
      have hA := IH.1 conn g
      simp only [hA]
      rw [IHF g conn]
    · intro conn x hx
      simp only [tw_spm_eq b1 b2 cfg o c conn] at hx
      split_ifs at hx with h1
      obtain ⟨alt, halt⟩ := Option.isSome_iff_exists.mp h1
      injection hx with hx
      subst hx
      intro g
      simp only [halt, Option.getD_some]
      have hB := IH.2 conn alt halt
      rw [tw_spm_eq b1 b2 cfg o alt g]
      simp only [hB g]
      simp
  | generic caps ps =>
    have IH : ∀ bc ∈ ps,
        (∀ conn g, transform_with_payload b1 b2 cfg
            ((transform_with_payload b1 b2 cfg bc.2 conn).1) g =
          ((transform_with_payload b1 b2 cfg bc.2 conn).1,
           (transform_with_payload b1 b2 cfg bc.2 g).2)) ∧
        (∀ conn x, (transform_with_payload b1 b2 cfg bc.2 conn).2 = some x →
          ∀ g, transform_with_payload b1 b2 cfg x g = (x, none)) := by
      intro bc hbc
      exact tw_stable b1 b2 cfg bc.2
    have IHF : ∀ bc ∈ ps, ∀ f f',
        (transform_with_payload b1 b2 cfg bc.2 f).1 =
        (transform_with_payload b1 b2 cfg bc.2 f').1 := by
      intro bc hbc f f'
      exact tw_fst_flag_indep b1 b2 cfg bc.2 f f'
    have IHZ : ∀ bc ∈ ps,
        (transform_with_payload b1 b2 cfg bc.2 false).2 = none := by
      intro bc hbc
      exact tw_snd_conn_false b1 b2 cfg bc.2
    constructor
    · intro conn g
      simp only [tw_generic_eq b1 b2 cfg caps ps conn,
        tw_generic_eq b1 b2 cfg caps ps g]
      rw [tw_generic_eq b1 b2 cfg caps (ps.map fun bc =>
        (bc.1, (transform_with_payload b1 b2 cfg bc.2 (conn && bc.1)).1)) g]
      have ha : (ps.map fun bc =>
          (bc.1, (transform_with_payload b1 b2 cfg bc.2 (conn && bc.1)).1)).map
            (fun bc => (bc.1,
              (transform_with_payload b1 b2 cfg bc.2 (g && bc.1)).1)) =
          ps.map fun bc =>
            (bc.1, (transform_with_payload b1 b2 cfg bc.2 (conn && bc.1)).1) := by
        rw [List.map_map]
        refine List.map_congr_left ?_
        intro bc hbc
        simp only [Function.comp]
        rw [(IH bc hbc).1 (conn && bc.1) (g && bc.1)]
      have hb : (ps.map fun bc =>
          (bc.1, (transform_with_payload b1 b2 cfg bc.2 (conn && bc.1)).1)).map
            (fun bc =>
              (transform_with_payload b1 b2 cfg bc.2 (g && bc.1)).2) =
          ps.map fun bc =>
            (transform_with_payload b1 b2 cfg bc.2 (g && bc.1)).2 := by
        rw [List.map_map]
        refine List.map_congr_left ?_
        intro bc hbc
        simp only [Function.comp]
        rw [(IH bc hbc).1 (conn && bc.1) (g && bc.1)]
      have hc : (ps.map fun bc =>
          (bc.1, (transform_with_payload b1 b2 cfg bc.2 (conn && bc.1)).1)).map
            (fun bc => (bc.1,
              (transform_with_payload b1 b2 cfg bc.2 (g && bc.1)).2.getD
                (transform_with_payload b1 b2 cfg bc.2 (g && bc.1)).1)) =
          ps.map fun bc => (bc.1,
            (transform_with_payload b1 b2 cfg bc.2 (g && bc.1)).2.getD
              (transform_with_payload b1 b2 cfg bc.2 (g && bc.1)).1) := by
        rw [List.map_map]
        refine List.map_congr_left ?_
        intro bc hbc
        simp only [Function.comp]
        rw [(IH bc hbc).1 (conn && bc.1) (g && bc.1)]
        rw [IHF bc hbc (g && bc.1) (conn && bc.1)]
      rw [ha, hb, hc]
    · intro conn x hx
      simp only [tw_generic_eq b1 b2 cfg caps ps conn] at hx
      split_ifs at hx with hAny
      injection hx with hx
      subst hx
      intro g
      have hconn : conn = true := by
        rcases List.any_eq_true.mp hAny with ⟨ob, hob, hsome⟩
        rcases List.mem_map.mp hob with ⟨bc, hbc, rfl⟩
        cases conn
        · exfalso
          rw [Bool.false_and, IHZ bc hbc] at hsome
          simp at hsome
        · rfl
      subst hconn
      rw [tw_generic_eq b1 b2 cfg caps (ps.map fun bc => (bc.1,
        (transform_with_payload b1 b2 cfg bc.2 (true && bc.1)).2.getD
          (transform_with_payload b1 b2 cfg bc.2 (true && bc.1)).1)) g]
      have hstep : ∀ bc ∈ ps, transform_with_payload b1 b2 cfg
          ((transform_with_payload b1 b2 cfg bc.2 (true && bc.1)).2.getD
            (transform_with_payload b1 b2 cfg bc.2 (true && bc.1)).1)
          (g && bc.1) =
          ((transform_with_payload b1 b2 cfg bc.2 (true && bc.1)).2.getD
            (transform_with_payload b1 b2 cfg bc.2 (true && bc.1)).1, none) := by
        intro bc hbc
        cases hbc2 : (transform_with_payload b1 b2 cfg bc.2 (true && bc.1)).2 with
        | some alt =>
          simp only [hbc2, Option.getD_some]
          exact (IH bc hbc).2 (true && bc.1) alt hbc2 (g && bc.1)
        | none =>
          simp only [hbc2, Option.getD_none]
          rw [(IH bc hbc).1 (true && bc.1) (g && bc.1)]
          have hg2 : (transform_with_payload b1 b2 cfg bc.2 (g && bc.1)).2 =
              none := by
            cases g
            · rw [Bool.false_and]
              exact IHZ bc hbc
            · rw [Bool.true_and]
              rw [Bool.true_and] at hbc2
              exact hbc2
          rw [hg2]
      have ha : (ps.map fun bc => (bc.1,
          (transform_with_payload b1 b2 cfg bc.2 (true && bc.1)).2.getD
            (transform_with_payload b1 b2 cfg bc.2 (true && bc.1)).1)).map
            (fun bc => (bc.1,
              (transform_with_payload b1 b2 cfg bc.2 (g && bc.1)).1)) =
          ps.map fun bc => (bc.1,
            (transform_with_payload b1 b2 cfg bc.2 (true && bc.1)).2.getD
              (transform_with_payload b1 b2 cfg bc.2 (true && bc.1)).1) := by
        rw [List.map_map]
        refine List.map_congr_left ?_
        intro bc hbc
        simp only [Function.comp]
        rw [hstep bc hbc]
      have hb : (ps.map fun bc => (bc.1,
          (transform_with_payload b1 b2 cfg bc.2 (true && bc.1)).2.getD
            (transform_with_payload b1 b2 cfg bc.2 (true && bc.1)).1)).map
            (fun bc =>
              (transform_with_payload b1 b2 cfg bc.2 (g && bc.1)).2) =
          ps.map fun _ => none := by
        rw [List.map_map]
        refine List.map_congr_left ?_
        intro bc hbc
        simp only [Function.comp]
        rw [hstep bc hbc]
      rw [ha, hb, map_none_eq_replicate, any_isSome_replicate_none]
      simp
termination_by planSize plan
decreasing_by
  all_goals first
    | exact mem_pair_size_lt (by assumption)
    | (simp [planSize] <;> omega)

/-- C9: for every plan and every setting of the profitability flags and
config, running the whole two-phase pass twice yields the same plan as
running it once — the pass reaches a fixed point in one run. -/
theorem claim_C9 (plan : PlanNode) (b1 b2 : Bool) (cfg : ConfigOptions) :
    replace_with_order_preserving_variants b1 b2 cfg
      (replace_with_order_preserving_variants b1 b2 cfg plan) =
    replace_with_order_preserving_variants b1 b2 cfg plan := by
  unfold replace_with_order_preserving_variants
  rw [(tw_stable b1 b2 cfg plan).1 false false]
